import Mathlib

/-!
Verification development for the `cache-go` repository.

The Go sources are shallowly embedded as executable Lean definitions:

* Go strings (byte sequences; every string handled here is treated
  character-wise) become `Str := List Char`.
* The in-process backend `MemoryCache` (src/memory_cache.go) becomes a pure
  association list from keys to `CacheItem`, with every operation translated as
  a state-passing function.  The wall clock consulted by `time.Now()` is an
  explicit `now : Int` argument; `time.Duration` values are `Int`.  A
  `time.Time` zero value ("no expiration") is `Option.none`.
* The cache-aside wrapper (src/wrapper.go) becomes a pure function over the
  observable results of its collaborators (`repo.Get`, `json.Unmarshal`,
  `fnCacheable`, `json.Marshal`, `repo.Store`/`repo.StoreWithoutTTL`), which
  are passed in as arguments; the output records the returned value, the
  returned error, and which side effects (source call, serialization, store
  call) happened.  The sign tests `exp.Seconds() < 0` / `== 0` on a
  `time.Duration` agree with the integer sign of the duration in nanoseconds,
  so the embedded TTL is an `Int` compared with `0`.
* `path/filepath.Match` from the Go standard library (the glob matcher that
  `MemoryCache.KeysByPattern` delegates to) is ported rune-for-rune for the
  non-Windows rule set, with `Char` standing for a decoded rune.
-/

set_option autoImplicit false

namespace CacheGo

/-- A Go string / byte slice, embedded character-wise. -/
abbrev Str := List Char

/-! ## List encoding (src/memory_cache.go uses `strings.Split`/`strings.Join`)

`splitComma` is Go's `strings.Split(s, ",")` and `joinComma` is
`strings.Join(values, ",")`.  Note `strings.Split("", ",") == [""]`. -/

/-- Go `strings.Split(s, ",")`: split at every comma; the empty string yields
a single empty element. -/
def splitComma : Str → List Str
  | [] => [[]]
  | c :: rest =>
    let r := splitComma rest
    if c = ',' then [] :: r
    else
      match r with
      | h :: t => (c :: h) :: t
      | [] => [[c]]

/-- Go `strings.Join(values, ",")`. -/
def joinComma : List Str → Str
  | [] => []
  | [x] => x
  | x :: xs => x ++ ',' :: joinComma xs

theorem splitComma_ne_nil (s : Str) : splitComma s ≠ [] := by
  cases s with
  | nil => simp [splitComma]
  | cons c rest =>
    simp only [splitComma]
    split
    · simp
    · split
      · simp
      · simp

/-- A comma-free string splits into itself. -/
theorem splitComma_no_comma (s : Str) (h : ',' ∉ s) : splitComma s = [s] := by
  induction s with
  | nil => rfl
  | cons c rest ih =>
    simp only [List.mem_cons, not_or] at h
    have hc : ¬ c = ',' := fun hc => h.1 hc.symm
    simp only [splitComma]
    rw [if_neg hc, ih h.2]

/-- Splitting distributes over a comma-free chunk followed by a comma. -/
theorem splitComma_append (x : Str) (rest : Str) (hx : ',' ∉ x) :
    splitComma (x ++ ',' :: rest) = x :: splitComma rest := by
  induction x with
  | nil => simp [splitComma]
  | cons c t ih =>
    simp only [List.mem_cons, not_or] at hx
    have hc : ¬ c = ',' := fun h => hx.1 h.symm
    have ht := ih hx.2
    show splitComma (c :: (t ++ ',' :: rest)) = (c :: t) :: splitComma rest
    simp only [splitComma]
    rw [if_neg hc, ht]

/-- Round trip: joining comma-free elements and re-splitting is the identity
(for a non-empty element list). -/
theorem splitComma_joinComma (l : List Str) (hl : l ≠ [])
    (hc : ∀ v ∈ l, ',' ∉ v) : splitComma (joinComma l) = l := by
  induction l with
  | nil => exact absurd rfl hl
  | cons x xs ih =>
    cases xs with
    | nil =>
      simp only [joinComma]
      exact splitComma_no_comma x (hc x (by simp))
    | cons y ys =>
      have hx : ',' ∉ x := hc x (by simp)
      simp only [joinComma, splitComma_append x _ hx]
      rw [ih (by simp) (fun v hv => hc v (List.mem_cons_of_mem _ hv))]

/-! ## In-process backend state (src/memory_cache.go)

```go
type CacheItem struct {
    value     []byte
    expiresAt time.Time
}
type MemoryCache struct {
    mu    sync.RWMutex
    items map[string]CacheItem
}
```

The map becomes an association list; `expiresAt : Option Int` is `none` for the
`time.Time{}` zero value ("no expiration") and `some t` for an absolute expiry
instant `t`. -/

structure CacheItem where
  value : Str
  expiresAt : Option Int
  deriving DecidableEq, Repr

abbrev CacheState := List (Str × CacheItem)

/-- Go map read `m.items[key]`. -/
def alookup : CacheState → Str → Option CacheItem
  | [], _ => none
  | (k', it) :: rest, k => if k' = k then some it else alookup rest k

/-- Go map write `m.items[key] = it` (replace if present, append otherwise). -/
def aset : CacheState → Str → CacheItem → CacheState
  | [], k, it => [(k, it)]
  | (k', it') :: rest, k, it =>
    if k' = k then (k, it) :: rest else (k', it') :: aset rest k it

/-- Go map delete `delete(m.items, key)`. -/
def aerase (st : CacheState) (k : Str) : CacheState :=
  st.filter (fun e => e.1 ≠ k)

@[simp] theorem alookup_aset_self (st : CacheState) (k : Str) (it : CacheItem) :
    alookup (aset st k it) k = some it := by
  induction st with
  | nil => simp [aset, alookup]
  | cons e rest ih =>
    obtain ⟨k', it'⟩ := e
    by_cases h : k' = k
    · simp [aset, alookup, h]
    · simp [aset, alookup, h, ih]

@[simp] theorem alookup_aerase_self (st : CacheState) (k : Str) :
    alookup (aerase st k) k = none := by
  induction st with
  | nil => simp [aerase, alookup]
  | cons e rest ih =>
    obtain ⟨k', it'⟩ := e
    by_cases h : k' = k
    · simpa [aerase, h] using ih
    · simpa [aerase, alookup, h] using ih

/-! ## In-process backend operations (src/memory_cache.go)

Each operation is translated line by line from the Go method of the same name;
`now : Int` stands for `time.Now()` where the method consults the clock. -/

namespace MemoryCache

/-- Go `func (m *MemoryCache) Store`: upsert with `expiresAt = now + exp`. -/
def Store (now : Int) (st : CacheState) (key value : Str) (exp : Int) :
    CacheState :=
  aset st key ⟨value, some (now + exp)⟩

/-- Go `func (m *MemoryCache) StoreWithoutTTL`: upsert with the zero
`time.Time` (no expiration). -/
def StoreWithoutTTL (st : CacheState) (key value : Str) : CacheState :=
  aset st key ⟨value, none⟩

/-- Go `func (m *MemoryCache) Get`: report the value if present and not
expired; an entry whose expiry is strictly in the past is deleted and reported
as not found.  The `Option Str` result is the Go `([]byte, bool)` pair (the
error is always nil). -/
def Get (now : Int) (st : CacheState) (key : Str) : CacheState × Option Str :=
  match alookup st key with
  | none => (st, none)
  | some item =>
    match item.expiresAt with
    | some t => if now > t then (aerase st key, none) else (st, some item.value)
    | none => (st, some item.value)

/-- Go `func (m *MemoryCache) Delete`. -/
def Delete (st : CacheState) (key : Str) : CacheState :=
  aerase st key

/-- Go `func int64ToBytes(n int64) []byte`: decimal ASCII rendering. -/
def int64ToBytes (n : Int) : Str :=
  (toString n).toList

/-- Go `func bytesToInt64(b []byte) int64` via `fmt.Sscanf(string(b), "%d")`:
an optional minus sign followed by a digit prefix; anything unparsable leaves
the result at zero. -/
def bytesToInt64 (b : Str) : Int :=
  let digits (s : Str) : Int :=
    (s.takeWhile Char.isDigit).foldl
      (fun acc c => acc * 10 + (Int.ofNat (c.toNat - '0'.toNat))) 0
  match b with
  | '-' :: rest => -(digits rest)
  | _ => digits b

/-- Go `func (m *MemoryCache) Increment`: read the stored counter (absent key
counts as zero), add one, store with no expiration, return the new value.  The
stored expiry is never consulted. -/
def Increment (st : CacheState) (key : Str) : CacheState × Int :=
  let val : Int :=
    match alookup st key with
    | some item => bytesToInt64 item.value
    | none => 0
  let val' := val + 1
  (aset st key ⟨int64ToBytes val', none⟩, val')

/-- Go `func (m *MemoryCache) IncrementWithTTL`: like `Increment` but the new
entry expires at `now + exp`.  The previously stored expiry is never
consulted. -/
def IncrementWithTTL (now : Int) (st : CacheState) (key : Str) (exp : Int) :
    CacheState × Int :=
  let val : Int :=
    match alookup st key with
    | some item => bytesToInt64 item.value
    | none => 0
  let val' := val + 1
  (aset st key ⟨int64ToBytes val', some (now + exp)⟩, val')

/-- Go decode step shared by `LPush`: split the stored value, special-casing a
single empty element (`len(values) == 1 && values[0] == ""`) to the empty
list. -/
def decodeListGo (v : Str) : List Str :=
  let values := splitComma v
  if values = [[]] then [] else values

/-- Go `func (m *MemoryCache) LPush`: prepend to the decoded list (absent key
decodes to the empty list) and store the re-joined encoding with no
expiration. -/
def LPush (st : CacheState) (key value : Str) : CacheState :=
  let values : List Str :=
    match alookup st key with
    | some item => decodeListGo item.value
    | none => []
  let values := value :: values
  aset st key ⟨joinComma values, none⟩

/-- Range normalization and slicing of `LRange` applied to a stored value,
translated from src/memory_cache.go lines 143-169. -/
def lrangeOnValue (v : Str) (start stop : Int) : List Str :=
  let values := splitComma v
  if values = [[]] then []
  else
    let length : Int := values.length
    let start := if start < 0 then
        (if length + start < 0 then 0 else length + start) else start
    let stop := if stop < 0 then
        (if length + stop < 0 then 0 else length + stop) else stop
    let stop := if stop ≥ length then length - 1 else stop
    if start > stop then []
    else ((values.drop start.toNat).take (stop - start + 1).toNat)

/-- Go `func (m *MemoryCache) LRange`: absent key yields the empty list,
otherwise the stored value is decoded and sliced.  No expiry check is
performed. -/
def LRange (st : CacheState) (key : Str) (start stop : Int) : List Str :=
  match alookup st key with
  | none => []
  | some item => lrangeOnValue item.value start stop

/-- Go `func (m *MemoryCache) LTrim`: replace the stored list with
`LRange(key, start, stop)`; delete the key when that is empty.  The kept
entry has no expiration. -/
def LTrim (st : CacheState) (key : Str) (start stop : Int) : CacheState :=
  let values := LRange st key start stop
  if values = [] then aerase st key
  else aset st key ⟨joinComma values, none⟩

/-- Go loop for `count > 0` in `LRem`: scanning head-to-tail, drop a matching
element while `removed < count`. -/
def lremForward (values : List Str) (target : Str) (removed count : Int) :
    List Str :=
  match values with
  | [] => []
  | v :: rest =>
    if v = target ∧ removed < count then lremForward rest target (removed + 1) count
    else v :: lremForward rest target removed count

/-- Go loop for `count < 0` in `LRem` (after `count = -count`): scanning
tail-to-head, drop a matching element while `removed < count`, prepending kept
elements so the surviving order is preserved. -/
def lremBackward (values : List Str) (target : Str) (count : Int) : List Str :=
  (lremForward values.reverse target 0 count).reverse

/-- Go `func (m *MemoryCache) LRem`: absent key and the empty-string encoding
are both left untouched; otherwise remove occurrences according to the sign of
`count`, deleting the key when the result is empty and otherwise storing the
re-joined result with no expiration. -/
def LRem (st : CacheState) (key : Str) (count : Int) (value : Str) :
    CacheState :=
  match alookup st key with
  | none => st
  | some item =>
    let values := splitComma item.value
    if values = [[]] then st
    else
      let result : List Str :=
        if count > 0 then lremForward values value 0 count
        else if count < 0 then lremBackward values value (-count)
        else values.filter (fun v => v ≠ value)
      if result = [] then aerase st key
      else aset st key ⟨joinComma result, none⟩

end MemoryCache

/-! ## Glob matcher (Go standard library `path/filepath.Match`, non-Windows)

`MemoryCache.KeysByPattern` delegates pattern matching to `filepath.Match`.
The port below follows the Go 1.23 implementation (`scanChunk`, `matchChunk`,
`getEsc`) with `Char` standing for a decoded rune and `Unit` for
`ErrBadPattern`; `Separator` is `'/'`. -/

namespace Filepath

/-- Go `getEsc`: read one possibly-escaped character of a character class.
A leading `-` or `]`, a trailing backslash, or an exhausted class (nothing
after the character) is a bad pattern. -/
def getEsc : Str → Except Unit (Char × Str)
  | [] => .error ()
  | c :: rest =>
    if c = '-' ∨ c = ']' then .error ()
    else if c = '\\' then
      match rest with
      | [] => .error ()
      | d :: rest' => if rest' = [] then .error () else .ok (d, rest')
    else if rest = [] then .error () else .ok (c, rest)

theorem getEsc_length {c : Str} {r : Char} {rest : Str}
    (h : getEsc c = .ok (r, rest)) : rest.length < c.length := by
  match c with
  | [] => simp [getEsc] at h
  | x :: t =>
    simp only [getEsc] at h
    split at h
    · simp at h
    · split at h
      · match t with
        | [] => simp at h
        | d :: t' =>
          simp only at h
          split at h
          · simp at h
          · simp only [Except.ok.injEq, Prod.mk.injEq] at h
            obtain ⟨-, h2⟩ := h
            subst h2
            simp only [List.length_cons]
            omega
      · split at h
        · simp at h
        · simp only [Except.ok.injEq, Prod.mk.injEq] at h
          obtain ⟨-, h2⟩ := h
          subst h2
          simp only [List.length_cons]
          omega

/-- Go range-parsing loop inside `matchChunk`'s `[` case: accumulate whether
rune `r` falls in any range, counting ranges, until the closing `]`. -/
def parseClass (r : Char) (chunk : Str) (matched : Bool) (nrange : Nat) :
    Except Unit (Bool × Str) :=
  if chunk.head? = some ']' ∧ nrange > 0 then .ok (matched, chunk.tail)
  else
    match h1 : getEsc chunk with
    | .error _ => .error ()
    | .ok (lo, ch1) =>
      match h2 : ch1 with
      | [] => .error ()
      | c :: ch2 =>
        if c = '-' then
          match h3 : getEsc ch2 with
          | .error _ => .error ()
          | .ok (hi, ch3) =>
            parseClass r ch3 (matched || decide (lo ≤ r ∧ r ≤ hi)) (nrange + 1)
        else
          parseClass r ch1 (matched || decide (lo ≤ r ∧ r ≤ lo)) (nrange + 1)
termination_by chunk.length
decreasing_by
  · have hl1 := getEsc_length h1
    have hl3 := getEsc_length h3
    subst h2
    simp only [List.length_cons] at hl1
    omega
  · have hl1 := getEsc_length h1
    subst h2
    simp only [List.length_cons] at hl1 ⊢
    omega

theorem parseClass_length_aux (r : Char) (n : Nat) :
    ∀ (chunk : Str), chunk.length ≤ n →
      ∀ (matched : Bool) (nrange : Nat) (b : Bool) (rest : Str),
        parseClass r chunk matched nrange = .ok (b, rest) →
        rest.length ≤ chunk.length := by
  induction n with
  | zero =>
    intro chunk hlen matched nrange b rest h
    have hnil : chunk = [] := List.length_eq_zero.mp (Nat.le_zero.mp hlen)
    subst hnil
    rw [parseClass] at h
    simp [getEsc] at h
  | succ n ih =>
    intro chunk hlen matched nrange b rest h
    rw [parseClass] at h
    split at h
    · simp only [Except.ok.injEq, Prod.mk.injEq] at h
      rw [← h.2]
      cases chunk <;> simp
    · split at h
      · simp at h
      · rename_i lo ch1 h1
        split at h
        · simp at h
        · rename_i c ch2 h2
          split at h
          · split at h
            · simp at h
            · rename_i hi ch3 h3
              have hl1 := getEsc_length h1
              have hl3 := getEsc_length h3
              simp only [List.length_cons] at hl1
              have hrec := ih ch3 (by omega) _ _ _ _ h
              omega
          · have hl1 := getEsc_length h1
            simp only [List.length_cons] at hl1
            have hrec := ih (c :: ch2)
              (by simp only [List.length_cons]; omega) _ _ _ _ h
            simp only [List.length_cons] at hrec
            omega

theorem parseClass_length (r : Char) (chunk : Str) (matched : Bool)
    (nrange : Nat) {b : Bool} {rest : Str}
    (h : parseClass r chunk matched nrange = .ok (b, rest)) :
    rest.length ≤ chunk.length :=
  parseClass_length_aux r chunk.length chunk le_rfl matched nrange b rest h

/-- Go `matchChunk`: match a star-free chunk against the head of `s`,
returning the unmatched remainder.  After a mismatch the chunk is still
scanned to the end so that syntax errors are always reported. -/
def matchChunk (chunk s : Str) (failed : Bool) : Except Unit (Option Str) :=
  match chunk with
  | [] => if failed then .ok none else .ok (some s)
  | c :: ch =>
    let failed := failed || s.isEmpty
    if c = '[' then
      let r := if failed then Char.ofNat 0 else s.headD (Char.ofNat 0)
      let s' := if failed then s else s.tail
      if ch.head? = some '^' then
        match hpc : parseClass r ch.tail false 0 with
        | .error _ => .error ()
        | .ok (m, chRest) => matchChunk chRest s' (failed || (m == true))
      else
        match hpc : parseClass r ch false 0 with
        | .error _ => .error ()
        | .ok (m, chRest) => matchChunk chRest s' (failed || (m == false))
    else if c = '?' then
      if failed then matchChunk ch s true
      else
        match s with
        | [] => matchChunk ch [] true
        | x :: s'' => matchChunk ch s'' (decide (x = '/'))
    else if c = '\\' then
      match ch with
      | [] => .error ()
      | d :: ch' =>
        if failed then matchChunk ch' s true
        else
          match s with
          | [] => matchChunk ch' [] true
          | x :: s'' => matchChunk ch' s'' (decide (¬ x = d))
    else
      if failed then matchChunk ch s true
      else
        match s with
        | [] => matchChunk ch [] true
        | x :: s'' => matchChunk ch s'' (decide (¬ x = c))
termination_by chunk.length
decreasing_by
  · have hle := parseClass_length _ _ _ _ hpc
    have htl : rest.tail.length ≤ rest.length := by
      cases rest <;> simp
    simp only [List.length_cons]
    omega
  · have hle := parseClass_length _ _ _ _ hpc
    simp only [List.length_cons]
    omega
  all_goals simp only [List.length_cons]
  all_goals omega

/-- Go `scanChunk`'s leading-star consumption. -/
def dropStars : Str → Bool × Str
  | [] => (false, [])
  | c :: rest =>
    if c = '*' then (true, (dropStars rest).2) else (false, c :: rest)

/-- Go `scanChunk`'s scan loop: cut the pattern at the next top-level `*`,
tracking whether the scanner is inside a character class and skipping the
character after a (non-final) backslash. -/
def chunkScan : Str → Bool → Str × Str
  | [], _ => ([], [])
  | c :: rest, inrange =>
    if c = '\\' then
      match rest with
      | [] => ([c], [])
      | d :: rest' =>
        let p := chunkScan rest' inrange
        (c :: d :: p.1, p.2)
    else if c = '[' then
      let p := chunkScan rest true
      (c :: p.1, p.2)
    else if c = ']' then
      let p := chunkScan rest false
      (c :: p.1, p.2)
    else if c = '*' ∧ inrange = false then ([], c :: rest)
    else
      let p := chunkScan rest inrange
      (c :: p.1, p.2)

/-- Go `scanChunk`: split a pattern into (leading star?, first chunk, rest). -/
def scanChunk (pattern : Str) : Bool × Str × Str :=
  let ds := dropStars pattern
  let cr := chunkScan ds.2 false
  (ds.1, cr.1, cr.2)

theorem chunkScan_sum (p : Str) (b : Bool) :
    (chunkScan p b).1.length + (chunkScan p b).2.length = p.length := by
  match p with
  | [] => simp [chunkScan]
  | c :: rest =>
    rw [chunkScan.eq_def]
    dsimp only
    split
    · match rest with
      | [] => simp
      | d :: rest' =>
        have := chunkScan_sum rest' b
        simp only [List.length_cons]
        omega
    · split
      · have := chunkScan_sum rest true
        simp only [List.length_cons]
        omega
      · split
        · have := chunkScan_sum rest false
          simp only [List.length_cons]
          omega
        · split
          · simp
          · have := chunkScan_sum rest b
            simp only [List.length_cons]
            omega

theorem dropStars_len (p : Str) : (dropStars p).2.length ≤ p.length := by
  match p with
  | [] => simp [dropStars]
  | c :: rest =>
    by_cases hc : c = '*'
    · simp only [dropStars, if_pos hc]
      have := dropStars_len rest
      simp only [List.length_cons]
      omega
    · simp [dropStars, if_neg hc]

theorem dropStars_true {p : Str} (h : (dropStars p).1 = true) :
    (dropStars p).2.length < p.length := by
  match p with
  | [] => simp [dropStars] at h
  | c :: rest =>
    by_cases hc : c = '*'
    · simp only [dropStars, if_pos hc]
      have := dropStars_len rest
      simp only [List.length_cons]
      omega
    · simp only [dropStars, if_neg hc] at h
      simp at h

theorem dropStars_false {p : Str} (h : (dropStars p).1 = false) :
    (dropStars p).2 = p := by
  match p with
  | [] => simp [dropStars]
  | c :: rest =>
    by_cases hc : c = '*'
    · simp [dropStars, if_pos hc] at h
    · simp [dropStars, if_neg hc]

theorem dropStars_head (p : Str) :
    (dropStars p).2 = [] ∨ (dropStars p).2.head? ≠ some '*' := by
  match p with
  | [] => simp [dropStars]
  | c :: rest =>
    by_cases hc : c = '*'
    · simp only [dropStars, if_pos hc]
      exact dropStars_head rest
    · right
      simp only [dropStars, if_neg hc, List.head?_cons, ne_eq,
        Option.some.injEq]
      exact hc

theorem chunkScan_nonempty {c : Char} {rest : Str} (hc : c ≠ '*') :
    (chunkScan (c :: rest) false).1 ≠ [] := by
  rw [chunkScan.eq_def]
  dsimp only
  by_cases h1 : c = '\\'
  · rw [if_pos h1]
    match rest with
    | [] => simp
    | d :: rest' => simp
  · rw [if_neg h1]
    by_cases h2 : c = '['
    · rw [if_pos h2]
      simp
    · rw [if_neg h2]
      by_cases h3 : c = ']'
      · rw [if_pos h3]
        simp
      · rw [if_neg h3]
        rw [if_neg (by simp [hc])]
        simp

/-- The rest returned by `scanChunk` is strictly shorter than a non-empty
input pattern. -/
theorem scanChunk_rest_lt (p : Str) (hp : p ≠ []) :
    (scanChunk p).2.2.length < p.length := by
  rcases p with _ | ⟨c, rest⟩
  · exact absurd rfl hp
  · simp only [scanChunk]
    by_cases hstar : (dropStars (c :: rest)).1 = true
    · have h1 := dropStars_true hstar
      have h2 := chunkScan_sum (dropStars (c :: rest)).2 false
      omega
    · have hfalse : (dropStars (c :: rest)).1 = false := by
        simpa using hstar
      have heq := dropStars_false hfalse
      rw [heq]
      have hc : c ≠ '*' := by
        rcases dropStars_head (c :: rest) with h | h
        · rw [heq] at h
          simp at h
        · rw [heq] at h
          simpa using h
      have hne := @chunkScan_nonempty c rest hc
      have hpos : 0 < (chunkScan (c :: rest) false).1.length :=
        List.length_pos.mpr hne
      have h2 := chunkScan_sum (c :: rest) false
      simp only [List.length_cons] at h2 ⊢
      omega

/-- Go star-block inner loop in `Match`: starting after each skipped
character of `name` (stopping at a separator), try `matchChunk`; a match with
a non-empty remainder is rejected when the chunk is the pattern's last. -/
def starSearch (chunk : Str) (restEmpty : Bool) : Str → Except Unit (Option Str)
  | [] => .ok none
  | c :: rest =>
    if c = '/' then .ok none
    else
      match matchChunk chunk rest false with
      | .error _ => .error ()
      | .ok (some t) =>
        if restEmpty = true ∧ t ≠ [] then starSearch chunk restEmpty rest
        else .ok (some t)
      | .ok none => starSearch chunk restEmpty rest

/-- Go validation loop at the end of `Match`: before returning a non-match,
scan the remaining pattern for syntax errors. -/
def validateRest (p : Str) : Except Unit Bool :=
  if hp : p = [] then .ok false
  else
    match matchChunk (scanChunk p).2.1 [] false with
    | .error _ => .error ()
    | .ok _ => validateRest (scanChunk p).2.2
termination_by p.length
decreasing_by simpa using scanChunk_rest_lt p hp

/-- Go `filepath.Match` (non-Windows): `.ok b` is `(b, nil)` and `.error ()`
is `ErrBadPattern`. -/
def Match (pattern name : Str) : Except Unit Bool :=
  if hp : pattern = [] then .ok (decide (name = []))
  else
    let sc := scanChunk pattern
    let star := sc.1
    let chunk := sc.2.1
    let rest := sc.2.2
    if star = true ∧ chunk = [] then .ok (decide (¬ '/' ∈ name))
    else
      match matchChunk chunk name false with
      | .error _ => .error ()
      | .ok (some t) =>
        if t = [] ∨ rest ≠ [] then Match rest t
        else if star then
          match starSearch chunk (decide (rest = [])) name with
          | .error _ => .error ()
          | .ok (some t') => Match rest t'
          | .ok none => validateRest rest
        else validateRest rest
      | .ok none =>
        if star then
          match starSearch chunk (decide (rest = [])) name with
          | .error _ => .error ()
          | .ok (some t') => Match rest t'
          | .ok none => validateRest rest
        else validateRest rest
termination_by pattern.length
decreasing_by all_goals simpa using scanChunk_rest_lt pattern hp

end Filepath

namespace MemoryCache

/-- Loop body of Go `func (m *MemoryCache) KeysByPattern` over the stored
keys in map order: collect keys matched by `filepath.Match`, aborting with the
error of the first key on which the matcher reports a bad pattern. -/
def keysByPatternAux (pattern : Str) : List Str → Except Unit (List Str)
  | [] => .ok []
  | k :: ks =>
    match Filepath.Match pattern k with
    | .error _ => .error ()
    | .ok true => (keysByPatternAux pattern ks).map (fun l => k :: l)
    | .ok false => keysByPatternAux pattern ks

/-- Go `func (m *MemoryCache) KeysByPattern`: run the loop over all stored
keys. -/
def KeysByPattern (st : CacheState) (pattern : Str) : Except Unit (List Str) :=
  keysByPatternAux pattern (st.map Prod.fst)

end MemoryCache

/-! ## Object-cache emulation (src/memcache_test.go, `MemcacheRepo.LRange`)

`MemcacheRepo.LRange` performs the same decode and normalization as the
in-process backend on the value fetched from the memcache client; the fetch is
embedded as an `Option Str` (`none` for `ErrCacheMiss`, transport failures
being outside the emulation logic under comparison). -/

namespace MemcacheRepo

/-- Go `func (m *MemcacheRepo) LRange` after a successful fetch (or a miss),
translated from src/memcache_test.go lines 251-287. -/
def LRange (stored : Option Str) (start stop : Int) : List Str :=
  match stored with
  | none => []
  | some v =>
    let values := splitComma v
    if values = [[]] then []
    else
      let length : Int := values.length
      let start := if start < 0 then
          (if length + start < 0 then 0 else length + start) else start
      let stop := if stop < 0 then
          (if length + stop < 0 then 0 else length + stop) else stop
      let stop := if stop ≥ length then length - 1 else stop
      if start > stop then []
      else ((values.drop start.toNat).take (stop - start + 1).toNat)

end MemcacheRepo

/-! ## Cache-aside wrapper (src/wrapper.go)

The wrapper is generic over the cached data type `D` and an error type `E`.
Its collaborators are embedded as explicit inputs:

* `bytesFromCache`, `found`, `getErr` — the triple returned by `repo.Get`;
* `unmarshal` — `json.Unmarshal` into `TData` (`none` meaning a non-nil
  error);
* `fetch` — the result of `fnCacheable` (`.ok none` is a nil pointer with a
  nil error);
* `marshal` — `json.Marshal` on the fetched data;
* `exp` — the `time.Duration` in nanoseconds (·`.Seconds() < 0`/`== 0` agree
  with the integer comparisons `exp < 0`/`exp = 0`);
* `storeErr` — whatever error the chosen store call would return.

The output records the returned `(*TData, error)` pair, which side effects
occurred, and the value of the local variable `err` at return time, which is
what the deferred `logrus` block logs. -/

/-- The backend store invocation performed by the wrapper, if any. -/
inductive StoreAct : Type
  | withTTL (bytes : Str) (exp : Int)
  | noTTL (bytes : Str)
  deriving DecidableEq, Repr

/-- Observable outcome of one wrapper call. -/
structure WrapperOut (E D : Type) where
  value : Option D
  error : Option E
  sourceCalled : Bool
  marshalCalled : Bool
  store : Option StoreAct
  errVar : Option E
  deriving DecidableEq, Repr

/-- Miss path of Go `GetFromCache` (src/wrapper.go lines 43-73): call the
source, bail out on a nil result, skip caching entirely for a negative TTL,
otherwise marshal (propagating its error) and store, ignoring the store error
in the returned pair. -/
def getFromCacheMiss {E D : Type} (fetch : Except E (Option D))
    (marshal : D → Except E Str) (exp : Int) (storeErr : Option E) :
    WrapperOut E D :=
  match fetch with
  | .error e => ⟨none, some e, true, false, none, some e⟩
  | .ok none => ⟨none, none, true, false, none, none⟩
  | .ok (some d) =>
    if exp < 0 then ⟨some d, none, true, false, none, none⟩
    else
      match marshal d with
      | .error e => ⟨none, some e, true, true, none, some e⟩
      | .ok bs =>
        if exp = 0 then ⟨some d, none, true, true, some (.noTTL bs), storeErr⟩
        else ⟨some d, none, true, true, some (.withTTL bs exp), storeErr⟩

/-- Go `func GetFromCache` (src/wrapper.go lines 12-74): on a found entry that
deserializes, return it; otherwise fall through to the miss path.  `getErr`
is never examined. -/
def GetFromCache {E D : Type} (bytesFromCache : Str) (found : Bool)
    (getErr : Option E) (unmarshal : Str → Option D)
    (fetch : Except E (Option D)) (marshal : D → Except E Str) (exp : Int)
    (storeErr : Option E) : WrapperOut E D :=
  if found then
    match unmarshal bytesFromCache with
    | some data => ⟨some data, none, false, false, none, none⟩
    | none => getFromCacheMiss fetch marshal exp storeErr
  else getFromCacheMiss fetch marshal exp storeErr

/-- Miss path of Go `GetFromCacheWithDynamicTTL` (src/wrapper.go lines
107-139): the fetched value is marshalled before the TTL is computed from it
by `fnGetTtl`. -/
def getFromCacheDynMiss {E D : Type} (fetch : Except E (Option D))
    (marshal : D → Except E Str) (fnGetTtl : D → Int) (storeErr : Option E) :
    WrapperOut E D :=
  match fetch with
  | .error e => ⟨none, some e, true, false, none, some e⟩
  | .ok none => ⟨none, none, true, false, none, none⟩
  | .ok (some d) =>
    match marshal d with
    | .error e => ⟨none, some e, true, true, none, some e⟩
    | .ok bs =>
      let exp := fnGetTtl d
      if exp < 0 then ⟨some d, none, true, true, none, none⟩
      else if exp = 0 then ⟨some d, none, true, true, some (.noTTL bs), storeErr⟩
      else ⟨some d, none, true, true, some (.withTTL bs exp), storeErr⟩

/-- Go `func GetFromCacheWithDynamicTTL` (src/wrapper.go lines 76-140). -/
def GetFromCacheWithDynamicTTL {E D : Type} (bytesFromCache : Str)
    (found : Bool) (getErr : Option E) (unmarshal : Str → Option D)
    (fetch : Except E (Option D)) (marshal : D → Except E Str)
    (fnGetTtl : D → Int) (storeErr : Option E) : WrapperOut E D :=
  if found then
    match unmarshal bytesFromCache with
    | some data => ⟨some data, none, false, false, none, none⟩
    | none => getFromCacheDynMiss fetch marshal fnGetTtl storeErr
  else getFromCacheDynMiss fetch marshal fnGetTtl storeErr

/-! ## Specification-side descriptions

These definitions follow the spec's wording (for refinement-style claims C7
and C8) rather than the Go control flow; the theorems below compare them with
the translations above. -/

/-- The LRange normalization algorithm exactly as itemized in spec §4.2
(steps 1-6). -/
def lrangeSpecAlg (v : Str) (start stop : Int) : List Str :=
  let elements := if splitComma v = [[]] then [] else splitComma v
  let length : Int := elements.length
  let s := if start < 0 then max 0 (length + start) else start
  let e := if stop < 0 then max 0 (length + stop) else stop
  let e := if e ≥ length then length - 1 else e
  if s > e then [] else ((elements.drop s.toNat).take (e - s + 1).toNat)

/-- Spec description of LRem with positive count: remove, scanning
head-to-tail, each occurrence of `target` while removal budget remains. -/
def removeFirstN : List Str → Str → Int → List Str
  | [], _, _ => []
  | v :: rest, target, n =>
    if v = target ∧ 0 < n then removeFirstN rest target (n - 1)
    else v :: removeFirstN rest target n

/-- Spec description of LRem with negative count: remove the last `n`
occurrences scanning tail-to-head, preserving the order of survivors. -/
def removeLastN (l : List Str) (target : Str) (n : Int) : List Str :=
  (removeFirstN l.reverse target n).reverse

/-- The survivors of one LRem call as described by the spec, by sign of
`count`. -/
def lremSpec (l : List Str) (target : Str) (count : Int) : List Str :=
  if 0 < count then removeFirstN l target count
  else if count < 0 then removeLastN l target (-count)
  else l.filter (fun v => v ≠ target)

/-! ## Helper lemmas -/

/-- The Go forward-removal loop with a `removed` counter equals the
budget-decrementing description. -/
theorem lremForward_eq (l : List Str) (target : Str) :
    ∀ (removed count : Int), MemoryCache.lremForward l target removed count
      = removeFirstN l target (count - removed) := by
  induction l with
  | nil => intro removed count; rfl
  | cons v rest ih =>
    intro removed count
    simp only [MemoryCache.lremForward, removeFirstN]
    by_cases hv : v = target
    · by_cases hlt : removed < count
      · rw [if_pos ⟨hv, hlt⟩, if_pos ⟨hv, by omega⟩, ih]
        congr 1
        omega
      · rw [if_neg (by tauto), if_neg (by rintro ⟨-, h⟩; omega), ih]
    · rw [if_neg (by tauto), if_neg (by tauto), ih]

/-- The removal expression in Go `LRem`'s body equals the spec-side
description `lremSpec`. -/
theorem lrem_code_eq_spec (l : List Str) (target : Str) (count : Int) :
    (if count > 0 then MemoryCache.lremForward l target 0 count
      else if count < 0 then MemoryCache.lremBackward l target (-count)
      else l.filter (fun v => v ≠ target)) = lremSpec l target count := by
  unfold lremSpec MemoryCache.lremBackward removeLastN
  by_cases h1 : count > 0
  · rw [if_pos h1, if_pos h1, lremForward_eq]
    congr 1
    omega
  · rw [if_neg h1, if_neg h1]
    by_cases h2 : count < 0
    · rw [if_pos h2, if_pos h2, lremForward_eq]
      congr 2
      omega
    · rw [if_neg h2, if_neg h2]

theorem mem_removeFirstN {x : Str} :
    ∀ {l : List Str} {target : Str} {n : Int}, x ∈ removeFirstN l target n →
      x ∈ l := by
  intro l
  induction l with
  | nil => intro target n h; simp [removeFirstN] at h
  | cons v rest ih =>
    intro target n h
    simp only [removeFirstN] at h
    split at h
    · exact List.mem_cons_of_mem _ (ih h)
    · rcases List.mem_cons.mp h with h | h
      · simp [h]
      · exact List.mem_cons_of_mem _ (ih h)

theorem mem_lremSpec {x : Str} {l : List Str} {target : Str} {count : Int}
    (h : x ∈ lremSpec l target count) : x ∈ l := by
  unfold lremSpec at h
  split at h
  · exact mem_removeFirstN h
  · split at h
    · unfold removeLastN at h
      rw [List.mem_reverse] at h
      exact List.mem_reverse.mp (mem_removeFirstN h)
    · exact List.mem_filter.mp h |>.1

/-- An encoded value splits to the single empty element exactly when it is
empty. -/
theorem splitComma_eq_singleton_nil {v : Str} :
    splitComma v = [[]] ↔ v = [] := by
  constructor
  · intro h
    match v with
    | [] => rfl
    | c :: rest =>
      simp only [splitComma] at h
      split at h
      · have hnn := splitComma_ne_nil rest
        simp only [List.cons.injEq] at h
        exact absurd h.2 hnn
      · split at h
        · simp at h
        · simp at h
  · intro h
    subst h
    rfl

/-- A good element list (non-empty, elements non-empty and comma-free)
re-splits to itself and is recovered in full by the LRange slice `[0, -1]`. -/
theorem lrangeOnValue_full (l : List Str) (hl : l ≠ [])
    (hc : ∀ v ∈ l, v ≠ [] ∧ ',' ∉ v) :
    MemoryCache.lrangeOnValue (joinComma l) 0 (-1) = l := by
  have hsp : splitComma (joinComma l) = l :=
    splitComma_joinComma l hl (fun v hv => (hc v hv).2)
  have hnotnil : l ≠ [[]] := by
    intro h
    exact (hc [] (h ▸ by simp)).1 rfl
  unfold MemoryCache.lrangeOnValue
  rw [hsp]
  rw [if_neg hnotnil]
  have hlen : 1 ≤ (l.length : Int) := by
    have := List.length_pos.mpr hl
    omega
  simp only
  rw [if_neg (by omega : ¬ (0 : Int) < 0)]
  rw [if_pos (by omega : (-1 : Int) < 0)]
  rw [if_neg (by omega : ¬ (l.length : Int) + -1 < 0)]
  rw [if_neg (by omega : ¬ (l.length : Int) + -1 ≥ (l.length : Int))]
  rw [if_neg (by omega : ¬ (0 : Int) > (l.length : Int) + -1)]
  have : ((l.length : Int) + -1 - 0 + 1).toNat = l.length := by omega
  rw [this]
  simp

/-- The key written by `aset` is the only one whose binding changes. -/
theorem alookup_aset_ne (st : CacheState) (k k' : Str) (it : CacheItem)
    (h : k ≠ k') : alookup (aset st k it) k' = alookup st k' := by
  induction st with
  | nil => simp [aset, alookup, h]
  | cons e rest ih =>
    obtain ⟨k₀, it₀⟩ := e
    by_cases h₀ : k₀ = k
    · subst h₀
      simp [aset, alookup, h]
    · simp [aset, alookup, h₀, ih]

/-- Accumulated effect of a fold of `LPush` calls over a key that already
holds a well-formed non-empty encoding. -/
theorem lpush_foldl (vs : List Str) : ∀ (st : CacheState) (k : Str)
    (l : List Str) (e? : Option Int),
    (∀ v ∈ vs, ',' ∉ v) →
    alookup st k = some ⟨joinComma l, e?⟩ → l ≠ [] → l ≠ [[]] →
    (∀ v ∈ l, ',' ∉ v) →
    ∃ e', alookup (vs.foldl (fun s v => MemoryCache.LPush s k v) st) k
      = some ⟨joinComma (vs.reverse ++ l), e'⟩ := by
  induction vs with
  | nil =>
    intro st k l e? _ hk _ _ _
    exact ⟨e?, by simpa using hk⟩
  | cons v vs' ih =>
    intro st k l e? hvs hk hne hnn hcf
    have hdec : MemoryCache.decodeListGo (joinComma l) = l := by
      unfold MemoryCache.decodeListGo
      rw [splitComma_joinComma l hne hcf, if_neg hnn]
    have hst1 : alookup (MemoryCache.LPush st k v) k
        = some ⟨joinComma (v :: l), none⟩ := by
      unfold MemoryCache.LPush
      rw [hk]
      simp only [hdec, alookup_aset_self]
    have hcf' : ∀ x ∈ v :: l, ',' ∉ x := by
      intro x hx
      rcases List.mem_cons.mp hx with h | h
      · rw [h]
        exact hvs v (by simp)
      · exact hcf x h
    have step := ih (MemoryCache.LPush st k v) k (v :: l) none
      (fun x hx => hvs x (List.mem_cons_of_mem _ hx)) hst1
      (by simp) (by simp [hne]) hcf'
    obtain ⟨e', he'⟩ := step
    refine ⟨e', ?_⟩
    simp only [List.foldl_cons]
    rw [he']
    congr 2
    simp

/-- Unfolding: with `found = false` both wrappers run their miss path. -/
theorem GetFromCache_false {E D : Type} (bytes : Str) (getErr : Option E)
    (um : Str → Option D) (fetch : Except E (Option D))
    (marshal : D → Except E Str) (exp : Int) (storeErr : Option E) :
    GetFromCache bytes false getErr um fetch marshal exp storeErr
      = getFromCacheMiss fetch marshal exp storeErr := rfl

theorem GetFromCacheDyn_false {E D : Type} (bytes : Str) (getErr : Option E)
    (um : Str → Option D) (fetch : Except E (Option D))
    (marshal : D → Except E Str) (fnGetTtl : D → Int) (storeErr : Option E) :
    GetFromCacheWithDynamicTTL bytes false getErr um fetch marshal fnGetTtl
        storeErr
      = getFromCacheDynMiss fetch marshal fnGetTtl storeErr := rfl

/-- Any returned error of the fixed-TTL miss path originates in the source
fetch or in the serialization. -/
theorem getFromCacheMiss_error_origin {E D : Type}
    (fetch : Except E (Option D)) (marshal : D → Except E Str) (exp : Int)
    (storeErr : Option E) (e : E)
    (h : (getFromCacheMiss fetch marshal exp storeErr).error = some e) :
    fetch = .error e ∨ ∃ d, fetch = .ok (some d) ∧ marshal d = .error e := by
  cases fetch with
  | error e' =>
    left
    simp only [getFromCacheMiss, Option.some.injEq] at h
    rw [h]
  | ok od =>
    cases od with
    | none => simp [getFromCacheMiss] at h
    | some d =>
      right
      refine ⟨d, rfl, ?_⟩
      simp only [getFromCacheMiss] at h
      split at h
      · simp at h
      · split at h
        · rename_i e' heq
          simp only [Option.some.injEq] at h
          rw [heq, h]
        · split at h <;> simp at h

/-- Any returned error of the dynamic-TTL miss path originates in the source
fetch or in the serialization. -/
theorem getFromCacheDynMiss_error_origin {E D : Type}
    (fetch : Except E (Option D)) (marshal : D → Except E Str)
    (fnGetTtl : D → Int) (storeErr : Option E) (e : E)
    (h : (getFromCacheDynMiss fetch marshal fnGetTtl storeErr).error = some e) :
    fetch = .error e ∨ ∃ d, fetch = .ok (some d) ∧ marshal d = .error e := by
  cases fetch with
  | error e' =>
    left
    simp only [getFromCacheDynMiss, Option.some.injEq] at h
    rw [h]
  | ok od =>
    cases od with
    | none => simp [getFromCacheDynMiss] at h
    | some d =>
      right
      refine ⟨d, rfl, ?_⟩
      simp only [getFromCacheDynMiss] at h
      split at h
      · rename_i e' heq
        simp only [Option.some.injEq] at h
        rw [heq, h]
      · split at h
        · simp at h
        · split at h <;> simp at h

theorem getFromCacheMiss_sourceCalled {E D : Type}
    (fetch : Except E (Option D)) (marshal : D → Except E Str) (exp : Int)
    (storeErr : Option E) :
    (getFromCacheMiss fetch marshal exp storeErr).sourceCalled = true := by
  cases fetch with
  | error e => rfl
  | ok od =>
    cases od with
    | none => rfl
    | some d =>
      simp only [getFromCacheMiss]
      split
      · rfl
      · split
        · rfl
        · split <;> rfl

theorem getFromCacheDynMiss_sourceCalled {E D : Type}
    (fetch : Except E (Option D)) (marshal : D → Except E Str)
    (fnGetTtl : D → Int) (storeErr : Option E) :
    (getFromCacheDynMiss fetch marshal fnGetTtl storeErr).sourceCalled
      = true := by
  cases fetch with
  | error e => rfl
  | ok od =>
    cases od with
    | none => rfl
    | some d =>
      simp only [getFromCacheDynMiss]
      split
      · rfl
      · split
        · rfl
        · split <;> rfl

/-! ## Claim C1 -/

/-- Claim C1 as stated is false: when the source fetch succeeds but
serializing its result fails, `GetFromCache` returns a nil value and the
serialization error — not the fetched value with a nil error.  Here the source
yields `5`, the serializer fails with error `7`, and the wrapper returns
`(nil, 7)`. -/
theorem C1_counterexample :
    (GetFromCache (E := Nat) (D := Nat) [] false none (fun _ => none)
        (.ok (some 5)) (fun _ => .error 7) 1 none).value = none ∧
    (GetFromCache (E := Nat) (D := Nat) [] false none (fun _ => none)
        (.ok (some 5)) (fun _ => .error 7) 1 none).error = some 7 := by
  exact ⟨rfl, rfl⟩

/-- Claim C1, amended: in both wrapper variants the only errors ever returned
to the caller are the source-fetch failure and the serialization
(`json.Marshal`) failure; a failure of the backend store itself is only
logged (it is the value of the local `err` variable at return), and the
fetched value is still returned with a nil error. -/
theorem C1_theorem {E D : Type} :
    (∀ (bytes : Str) (found : Bool) (getErr : Option E)
        (um : Str → Option D) (fetch : Except E (Option D))
        (marshal : D → Except E Str) (exp : Int) (storeErr : Option E) (e : E),
        (GetFromCache bytes found getErr um fetch marshal exp storeErr).error
            = some e →
        fetch = .error e ∨ ∃ d, fetch = .ok (some d) ∧ marshal d = .error e) ∧
    (∀ (bytes : Str) (found : Bool) (getErr : Option E)
        (um : Str → Option D) (fetch : Except E (Option D))
        (marshal : D → Except E Str) (fnGetTtl : D → Int)
        (storeErr : Option E) (e : E),
        (GetFromCacheWithDynamicTTL bytes found getErr um fetch marshal
            fnGetTtl storeErr).error = some e →
        fetch = .error e ∨ ∃ d, fetch = .ok (some d) ∧ marshal d = .error e) ∧
    (∀ (bytes : Str) (getErr : Option E) (um : Str → Option D)
        (marshal : D → Except E Str) (exp : Int) (storeErr : Option E)
        (d : D) (bs : Str), marshal d = .ok bs → 0 ≤ exp →
        (GetFromCache bytes false getErr um (.ok (some d)) marshal exp
            storeErr).value = some d ∧
        (GetFromCache bytes false getErr um (.ok (some d)) marshal exp
            storeErr).error = none ∧
        (GetFromCache bytes false getErr um (.ok (some d)) marshal exp
            storeErr).errVar = storeErr) ∧
    (∀ (bytes : Str) (getErr : Option E) (um : Str → Option D)
        (marshal : D → Except E Str) (fnGetTtl : D → Int) (storeErr : Option E)
        (d : D) (bs : Str), marshal d = .ok bs → 0 ≤ fnGetTtl d →
        (GetFromCacheWithDynamicTTL bytes false getErr um (.ok (some d))
            marshal fnGetTtl storeErr).value = some d ∧
        (GetFromCacheWithDynamicTTL bytes false getErr um (.ok (some d))
            marshal fnGetTtl storeErr).error = none ∧
        (GetFromCacheWithDynamicTTL bytes false getErr um (.ok (some d))
            marshal fnGetTtl storeErr).errVar = storeErr) := by
  refine ⟨?_, ?_, ?_, ?_⟩
  · intro bytes found getErr um fetch marshal exp storeErr e h
    unfold GetFromCache at h
    split at h
    · cases hum : um bytes with
      | some d =>
        rw [hum] at h
        simp at h
      | none =>
        rw [hum] at h
        exact getFromCacheMiss_error_origin _ _ _ _ _ h
    · exact getFromCacheMiss_error_origin _ _ _ _ _ h
  · intro bytes found getErr um fetch marshal fnGetTtl storeErr e h
    unfold GetFromCacheWithDynamicTTL at h
    split at h
    · cases hum : um bytes with
      | some d =>
        rw [hum] at h
        simp at h
      | none =>
        rw [hum] at h
        exact getFromCacheDynMiss_error_origin _ _ _ _ _ h
    · exact getFromCacheDynMiss_error_origin _ _ _ _ _ h
  · intro bytes getErr um marshal exp storeErr d bs hm hexp
    rw [GetFromCache_false]
    unfold getFromCacheMiss
    dsimp only
    rw [if_neg (by omega : ¬ exp < 0), hm]
    dsimp only
    by_cases h0 : exp = 0
    · rw [if_pos h0]
      exact ⟨rfl, rfl, rfl⟩
    · rw [if_neg h0]
      exact ⟨rfl, rfl, rfl⟩
  · intro bytes getErr um marshal fnGetTtl storeErr d bs hm hexp
    rw [GetFromCacheDyn_false]
    unfold getFromCacheDynMiss
    dsimp only
    rw [hm]
    dsimp only
    rw [if_neg (by omega : ¬ fnGetTtl d < 0)]
    by_cases h0 : fnGetTtl d = 0
    · rw [if_pos h0]
      exact ⟨rfl, rfl, rfl⟩
    · rw [if_neg h0]
      exact ⟨rfl, rfl, rfl⟩

/-- Witness for C1: a concrete run in which the source fetch succeeds, the
serialization succeeds, and the store fails with error `9`; the wrapper still
returns the value `5` with a nil error, and the store error is only
logged. -/
theorem C1_witness :
    (GetFromCache (E := Nat) (D := Nat) [] false none (fun _ => none)
        (.ok (some 5)) (fun _ => .ok ['5']) 1 (some 9)).value = some 5 ∧
    (GetFromCache (E := Nat) (D := Nat) [] false none (fun _ => none)
        (.ok (some 5)) (fun _ => .ok ['5']) 1 (some 9)).error = none ∧
    (GetFromCache (E := Nat) (D := Nat) [] false none (fun _ => none)
        (.ok (some 5)) (fun _ => .ok ['5']) 1 (some 9)).errVar = some 9 :=
  C1_theorem.2.2.1 [] none (fun _ => none) (fun _ => .ok ['5']) 1 (some 9) 5
    ['5'] rfl (by omega)

/-! ## Claim C3 -/

/-- Claim C3 as stated is false: in `GetFromCache` (fixed-TTL variant) a
negative TTL skips the cache **before** `json.Marshal` runs, so the value is
not serialized.  Concretely, with TTL `-1` the serializer is never invoked
(`marshalCalled = false`) and even a failing serializer leaves the result
untouched. -/
theorem C3_counterexample :
    (GetFromCache (E := Nat) (D := Nat) [] false none (fun _ => none)
        (.ok (some 5)) (fun _ => .error 7) (-1) none).marshalCalled = false ∧
    (GetFromCache (E := Nat) (D := Nat) [] false none (fun _ => none)
        (.ok (some 5)) (fun _ => .error 7) (-1) none)
      = ⟨some 5, none, true, false, none, none⟩ :=
  ⟨rfl, rfl⟩

/-- Claim C3, amended: after a successful source fetch of a non-nil value the
TTL sign decides persistence in both variants — TTL < 0 returns the value
without writing to the backend, TTL = 0 calls `StoreWithoutTTL`, TTL > 0 calls
`Store` with that TTL, and in the dynamic variant the TTL is computed from the
fetched value after the fetch succeeds.  However, only the dynamic variant
serializes the value before a negative TTL skips the cache; the fixed-TTL
variant skips serialization entirely. -/
theorem C3_theorem {E D : Type} :
    (∀ (bytes : Str) (getErr : Option E) (um : Str → Option D)
        (marshal : D → Except E Str) (exp : Int) (storeErr : Option E) (d : D),
        exp < 0 →
        GetFromCache bytes false getErr um (.ok (some d)) marshal exp storeErr
          = ⟨some d, none, true, false, none, none⟩) ∧
    (∀ (bytes : Str) (getErr : Option E) (um : Str → Option D)
        (marshal : D → Except E Str) (storeErr : Option E) (d : D) (bs : Str),
        marshal d = .ok bs →
        GetFromCache bytes false getErr um (.ok (some d)) marshal 0 storeErr
          = ⟨some d, none, true, true, some (.noTTL bs), storeErr⟩) ∧
    (∀ (bytes : Str) (getErr : Option E) (um : Str → Option D)
        (marshal : D → Except E Str) (exp : Int) (storeErr : Option E) (d : D)
        (bs : Str), marshal d = .ok bs → 0 < exp →
        GetFromCache bytes false getErr um (.ok (some d)) marshal exp storeErr
          = ⟨some d, none, true, true, some (.withTTL bs exp), storeErr⟩) ∧
    (∀ (bytes : Str) (getErr : Option E) (um : Str → Option D)
        (marshal : D → Except E Str) (fnGetTtl : D → Int) (storeErr : Option E)
        (d : D) (bs : Str), marshal d = .ok bs → fnGetTtl d < 0 →
        GetFromCacheWithDynamicTTL bytes false getErr um (.ok (some d)) marshal
            fnGetTtl storeErr
          = ⟨some d, none, true, true, none, none⟩) ∧
    (∀ (bytes : Str) (getErr : Option E) (um : Str → Option D)
        (marshal : D → Except E Str) (fnGetTtl : D → Int) (storeErr : Option E)
        (d : D) (bs : Str), marshal d = .ok bs → fnGetTtl d = 0 →
        GetFromCacheWithDynamicTTL bytes false getErr um (.ok (some d)) marshal
            fnGetTtl storeErr
          = ⟨some d, none, true, true, some (.noTTL bs), storeErr⟩) ∧
    (∀ (bytes : Str) (getErr : Option E) (um : Str → Option D)
        (marshal : D → Except E Str) (fnGetTtl : D → Int) (storeErr : Option E)
        (d : D) (bs : Str), marshal d = .ok bs → 0 < fnGetTtl d →
        GetFromCacheWithDynamicTTL bytes false getErr um (.ok (some d)) marshal
            fnGetTtl storeErr
          = ⟨some d, none, true, true, some (.withTTL bs (fnGetTtl d)),
              storeErr⟩) := by
  refine ⟨?_, ?_, ?_, ?_, ?_, ?_⟩
  · intro bytes getErr um marshal exp storeErr d hexp
    rw [GetFromCache_false]
    unfold getFromCacheMiss
    dsimp only
    rw [if_pos hexp]
  · intro bytes getErr um marshal storeErr d bs hm
    rw [GetFromCache_false]
    unfold getFromCacheMiss
    dsimp only
    rw [if_neg (by omega : ¬ (0 : Int) < 0), hm]
    dsimp only
    rw [if_pos rfl]
  · intro bytes getErr um marshal exp storeErr d bs hm hexp
    rw [GetFromCache_false]
    unfold getFromCacheMiss
    dsimp only
    rw [if_neg (by omega : ¬ exp < 0), hm]
    dsimp only
    rw [if_neg (by omega : ¬ exp = 0)]
  · intro bytes getErr um marshal fnGetTtl storeErr d bs hm hexp
    rw [GetFromCacheDyn_false]
    unfold getFromCacheDynMiss
    dsimp only
    rw [hm]
    dsimp only
    rw [if_pos hexp]
  · intro bytes getErr um marshal fnGetTtl storeErr d bs hm hexp
    rw [GetFromCacheDyn_false]
    unfold getFromCacheDynMiss
    dsimp only
    rw [hm]
    dsimp only
    rw [if_neg (by omega : ¬ fnGetTtl d < 0), if_pos hexp]
  · intro bytes getErr um marshal fnGetTtl storeErr d bs hm hexp
    rw [GetFromCacheDyn_false]
    unfold getFromCacheDynMiss
    dsimp only
    rw [hm]
    dsimp only
    rw [if_neg (by omega : ¬ fnGetTtl d < 0),
      if_neg (by omega : ¬ fnGetTtl d = 0)]

/-- Witness for C3: a concrete miss with TTL `3` and a successful fetch of
`4` serialized to `"4"`; the wrapper stores through `Store` with TTL `3`. -/
theorem C3_witness :
    GetFromCache (E := Nat) (D := Nat) [] false none (fun _ => none)
        (.ok (some 4)) (fun _ => .ok ['4']) 3 none
      = ⟨some 4, none, true, true, some (.withTTL ['4'] 3), none⟩ :=
  C3_theorem.2.2.1 [] none (fun _ => none) (fun _ => .ok ['4']) 3 none 4 ['4']
    rfl (by omega)

/-! ## Claim C4 -/

/-- Claim C4, confirmed: in both wrapper variants a found entry that
deserializes is returned as-is — the source is never invoked and nothing is
stored — while a found entry that fails to deserialize makes the call behave
exactly like a miss (same outcome for any cached bytes and any `Get` error),
without propagating the deserialization error. -/
theorem C4_theorem {E D : Type} :
    (∀ (bytes : Str) (getErr : Option E) (um : Str → Option D)
        (fetch : Except E (Option D)) (marshal : D → Except E Str) (exp : Int)
        (storeErr : Option E) (d : D), um bytes = some d →
        GetFromCache bytes true getErr um fetch marshal exp storeErr
          = ⟨some d, none, false, false, none, none⟩) ∧
    (∀ (bytes bytes' : Str) (getErr getErr' : Option E) (um : Str → Option D)
        (fetch : Except E (Option D)) (marshal : D → Except E Str) (exp : Int)
        (storeErr : Option E), um bytes = none →
        GetFromCache bytes true getErr um fetch marshal exp storeErr
          = GetFromCache bytes' false getErr' um fetch marshal exp storeErr) ∧
    (∀ (bytes : Str) (getErr : Option E) (um : Str → Option D)
        (fetch : Except E (Option D)) (marshal : D → Except E Str)
        (fnGetTtl : D → Int) (storeErr : Option E) (d : D),
        um bytes = some d →
        GetFromCacheWithDynamicTTL bytes true getErr um fetch marshal fnGetTtl
            storeErr
          = ⟨some d, none, false, false, none, none⟩) ∧
    (∀ (bytes bytes' : Str) (getErr getErr' : Option E) (um : Str → Option D)
        (fetch : Except E (Option D)) (marshal : D → Except E Str)
        (fnGetTtl : D → Int) (storeErr : Option E), um bytes = none →
        GetFromCacheWithDynamicTTL bytes true getErr um fetch marshal fnGetTtl
            storeErr
          = GetFromCacheWithDynamicTTL bytes' false getErr' um fetch marshal
              fnGetTtl storeErr) := by
  refine ⟨?_, ?_, ?_, ?_⟩
  · intro bytes getErr um fetch marshal exp storeErr d hum
    unfold GetFromCache
    rw [if_pos rfl, hum]
  · intro bytes bytes' getErr getErr' um fetch marshal exp storeErr hum
    unfold GetFromCache
    rw [if_pos rfl, hum]
    rw [if_neg (by simp)]
  · intro bytes getErr um fetch marshal fnGetTtl storeErr d hum
    unfold GetFromCacheWithDynamicTTL
    rw [if_pos rfl, hum]
  · intro bytes bytes' getErr getErr' um fetch marshal fnGetTtl storeErr hum
    unfold GetFromCacheWithDynamicTTL
    rw [if_pos rfl, hum]
    rw [if_neg (by simp)]

/-- Witness for C4: a concrete hit whose bytes deserialize to `3`; the value
is returned with no source call and no store. -/
theorem C4_witness :
    GetFromCache (E := Nat) (D := Nat) ['3'] true none (fun _ => some 3)
        (.ok (some 9)) (fun _ => .ok ['9']) 1 none
      = ⟨some 3, none, false, false, none, none⟩ :=
  C4_theorem.1 ['3'] none (fun _ => some 3) (.ok (some 9)) (fun _ => .ok ['9'])
    1 none 3 rfl

/-! ## Claim C5 -/

/-- Claim C5, confirmed: in both wrapper variants a `Get` error accompanied by
`found = false` is treated identically to a plain miss — the outcome is the
same as with a nil error, and the source function is invoked. -/
theorem C5_theorem {E D : Type} :
    (∀ (bytes : Str) (getErr : Option E) (um : Str → Option D)
        (fetch : Except E (Option D)) (marshal : D → Except E Str) (exp : Int)
        (storeErr : Option E),
        GetFromCache bytes false getErr um fetch marshal exp storeErr
          = GetFromCache bytes false none um fetch marshal exp storeErr ∧
        (GetFromCache bytes false getErr um fetch marshal exp
            storeErr).sourceCalled = true) ∧
    (∀ (bytes : Str) (getErr : Option E) (um : Str → Option D)
        (fetch : Except E (Option D)) (marshal : D → Except E Str)
        (fnGetTtl : D → Int) (storeErr : Option E),
        GetFromCacheWithDynamicTTL bytes false getErr um fetch marshal fnGetTtl
            storeErr
          = GetFromCacheWithDynamicTTL bytes false none um fetch marshal
              fnGetTtl storeErr ∧
        (GetFromCacheWithDynamicTTL bytes false getErr um fetch marshal
            fnGetTtl storeErr).sourceCalled = true) := by
  constructor
  · intro bytes getErr um fetch marshal exp storeErr
    refine ⟨rfl, ?_⟩
    rw [GetFromCache_false]
    exact getFromCacheMiss_sourceCalled fetch marshal exp storeErr
  · intro bytes getErr um fetch marshal fnGetTtl storeErr
    refine ⟨rfl, ?_⟩
    rw [GetFromCacheDyn_false]
    exact getFromCacheDynMiss_sourceCalled fetch marshal fnGetTtl storeErr

/-! ## Claim C2 -/

/-- Claim C2 exposes a code bug: only `Get` performs the lazy expiry check.
`Increment` reads the stored (expired) counter unchanged: after
`IncrementWithTTL` at time 0 with TTL 1, at time 2 `Get` already reports the
key as absent (and would delete it), yet `Increment` still observes the stored
value `1` and returns `2` — the repository's own test
(`TestMemoryCache_Increment`) expects `1` after expiry. -/
theorem C2_theorem :
    (MemoryCache.Get 2 (MemoryCache.IncrementWithTTL 0 [] ['k'] 1).1 ['k']).2
        = none ∧
    (MemoryCache.Increment (MemoryCache.IncrementWithTTL 0 [] ['k'] 1).1
        ['k']).2 = 2 :=
  ⟨rfl, rfl⟩

/-! ## Claim C6 -/

/-- Claim C6 as stated is false: a pushed value containing the comma
delimiter is split apart by the encoding.  Pushing the single value `"a,b"`
onto an absent key makes `LRange(k, 0, -1)` return the two elements
`["a", "b"]`, not the one pushed value. -/
theorem C6_counterexample :
    MemoryCache.LRange (MemoryCache.LPush [] ['k'] ['a', ',', 'b']) ['k'] 0
        (-1) = [['a'], ['b']] ∧
    MemoryCache.LRange (MemoryCache.LPush [] ['k'] ['a', ',', 'b']) ['k'] 0
        (-1) ≠ [['a', ',', 'b']] := by
  exact ⟨rfl, by decide⟩

/-- Claim C6, amended: for every key starting absent and every sequence of
`LPush` calls whose values are non-empty and free of the comma delimiter,
`LRange(k, 0, -1)` returns exactly the pushed values most-recent first. -/
theorem C6_theorem (st : CacheState) (k : Str) (vs : List Str)
    (hk : alookup st k = none) (hvs : ∀ v ∈ vs, v ≠ [] ∧ ',' ∉ v) :
    MemoryCache.LRange (vs.foldl (fun s v => MemoryCache.LPush s k v) st) k 0
        (-1) = vs.reverse := by
  cases vs with
  | nil =>
    unfold MemoryCache.LRange
    simp [hk]
  | cons v vs' =>
    have hst1 : alookup (MemoryCache.LPush st k v) k
        = some ⟨joinComma [v], none⟩ := by
      unfold MemoryCache.LPush
      rw [hk]
      exact alookup_aset_self st k _
    have hvnil : v ≠ [] := (hvs v (by simp)).1
    have hgood := lpush_foldl vs' (MemoryCache.LPush st k v) k [v] none
      (fun x hx => (hvs x (List.mem_cons_of_mem _ hx)).2) hst1 (by simp)
      (by simp [hvnil])
      (by
        intro x hx
        simp only [List.mem_singleton] at hx
        rw [hx]
        exact (hvs v (by simp)).2)
    obtain ⟨e', he'⟩ := hgood
    unfold MemoryCache.LRange
    simp only [List.foldl_cons]
    rw [he']
    have hrev : vs'.reverse ++ [v] = (v :: vs').reverse := by simp
    rw [hrev]
    exact lrangeOnValue_full ((v :: vs').reverse) (by simp)
      (fun x hx => hvs x (List.mem_reverse.mp hx))

/-- Witness for C6: pushing `"a"` then `"b"` onto an absent key yields
`LRange(k, 0, -1) = ["b", "a"]`. -/
theorem C6_witness :
    MemoryCache.LRange
        ([['a'], ['b']].foldl (fun s v => MemoryCache.LPush s ['k'] v) [])
        ['k'] 0 (-1) = [['b'], ['a']] :=
  (C6_theorem [] ['k'] [['a'], ['b']] rfl (by decide)).trans (by decide)

/-! ## Claim C7 -/

/-- Claim C7, confirmed: the in-process `LRange` and the object-cache
emulation's `LRange` both implement exactly the spec's normalization
algorithm (split with the empty-string special case, `max 0` clamping of
negative indices, upper clamping to `length - 1`, empty on inverted range,
inclusive slice), and the two implementations agree on every input, a miss
giving the empty list. -/
theorem C7_theorem :
    (∀ (v : Str) (start stop : Int),
        MemoryCache.lrangeOnValue v start stop = lrangeSpecAlg v start stop) ∧
    (∀ (v : Str) (start stop : Int),
        MemcacheRepo.LRange (some v) start stop = lrangeSpecAlg v start stop) ∧
    (∀ (start stop : Int), MemcacheRepo.LRange none start stop = []) ∧
    (∀ (st : CacheState) (k : Str) (start stop : Int),
        MemoryCache.LRange st k start stop
          = MemcacheRepo.LRange ((alookup st k).map CacheItem.value) start
              stop) := by
  have hbody : ∀ (v : Str) (start stop : Int),
      MemoryCache.lrangeOnValue v start stop = lrangeSpecAlg v start stop := by
    intro v start stop
    unfold MemoryCache.lrangeOnValue lrangeSpecAlg
    by_cases hsp : splitComma v = [[]]
    · rw [if_pos hsp]
      dsimp only
      rw [if_pos hsp]
      split <;> simp
    · rw [if_neg hsp]
      dsimp only
      rw [if_neg hsp]
      have hmax : ∀ (i : Int),
          (if ((splitComma v).length : Int) + i < 0 then 0
            else ((splitComma v).length : Int) + i)
            = max 0 (((splitComma v).length : Int) + i) := by
        intro i
        split
        · rw [max_eq_left (by omega)]
        · rw [max_eq_right (by omega)]
      rw [hmax, hmax]
  refine ⟨hbody, ?_, ?_, ?_⟩
  · intro v start stop
    exact (rfl : MemcacheRepo.LRange (some v) start stop
      = MemoryCache.lrangeOnValue v start stop).trans (hbody v start stop)
  · intro start stop
    rfl
  · intro st k start stop
    unfold MemoryCache.LRange MemcacheRepo.LRange
    cases alookup st k with
    | none => rfl
    | some it => rfl

/-! ## Claim C8 -/

/-- Claim C8 as stated is false on the empty stored list: the empty-string
encoding denotes the empty list, and `LRem` on it returns early without
deleting the key, although the resulting list is empty.  After storing `""`
and `LRem(k, 0, "a")`, the decoded list is empty yet the key is still
present. -/
theorem C8_counterexample :
    MemoryCache.LRange
        (MemoryCache.LRem (MemoryCache.StoreWithoutTTL [] ['k'] []) ['k'] 0
          ['a']) ['k'] 0 (-1) = [] ∧
    alookup
        (MemoryCache.LRem (MemoryCache.StoreWithoutTTL [] ['k'] []) ['k'] 0
          ['a']) ['k'] ≠ none := by
  exact ⟨rfl, by decide⟩

/-- Claim C8, amended: on every non-empty well-formed stored list, `LRem`
removes occurrences per the sign of `count` (first `count` scanning
head-to-tail for positive, last `|count|` scanning tail-to-head with order
preserved for negative, all for zero), deleting the key when the removal
leaves the list empty; only the already-empty encoding is left untouched. -/
theorem C8_theorem (st : CacheState) (k : Str) (vs : List Str) (count : Int)
    (target : Str) (e? : Option Int)
    (hk : alookup st k = some ⟨joinComma vs, e?⟩)
    (hvs : ∀ v ∈ vs, v ≠ [] ∧ ',' ∉ v) (hne : vs ≠ []) :
    (lremSpec vs target count = [] →
      alookup (MemoryCache.LRem st k count target) k = none) ∧
    (lremSpec vs target count ≠ [] →
      MemoryCache.LRange (MemoryCache.LRem st k count target) k 0 (-1)
        = lremSpec vs target count) := by
  have hsp : splitComma (joinComma vs) = vs :=
    splitComma_joinComma vs hne (fun v hv => (hvs v hv).2)
  have hnn : vs ≠ [[]] := fun h => (hvs [] (h ▸ by simp)).1 rfl
  have hlr : MemoryCache.LRem st k count target
      = (if lremSpec vs target count = [] then aerase st k
        else aset st k ⟨joinComma (lremSpec vs target count), none⟩) := by
    unfold MemoryCache.LRem
    rw [hk]
    dsimp only
    rw [hsp, if_neg hnn, lrem_code_eq_spec]
  rw [hlr]
  constructor
  · intro hres0
    rw [if_pos hres0]
    exact alookup_aerase_self st k
  · intro hresne
    rw [if_neg hresne]
    unfold MemoryCache.LRange
    rw [alookup_aset_self]
    exact lrangeOnValue_full _ hresne (fun x hx => hvs x (mem_lremSpec hx))

/-- Witness for C8: `LRem(k, 1, "a")` on the stored list `["a","b","a"]`
yields `["b","a"]`. -/
theorem C8_witness :
    MemoryCache.LRange
        (MemoryCache.LRem [(['k'], ⟨['a', ',', 'b', ',', 'a'], none⟩)] ['k'] 1
          ['a']) ['k'] 0 (-1) = [['b'], ['a']] :=
  ((C8_theorem [(['k'], ⟨['a', ',', 'b', ',', 'a'], none⟩)] ['k']
      [['a'], ['b'], ['a']] 1 ['a'] none rfl (by decide) (by decide)).2
    (by decide)).trans (by decide)

/-! ## Claim C9 -/

/-- The Boolean "the matcher accepted this key": used to state which keys
`KeysByPattern` collects. -/
def matchedOk (pattern k : Str) : Bool :=
  match Filepath.Match pattern k with
  | .ok true => true
  | _ => false

/-- The matcher reports the lone `[` as a bad pattern on any probe name. -/
theorem Match_bracket_x : Filepath.Match ['['] ['x'] = .error () := by
  rw [Filepath.Match.eq_def]
  simp [Filepath.scanChunk, Filepath.dropStars, Filepath.chunkScan]
  rw [Filepath.matchChunk.eq_def]
  simp
  rw [Filepath.parseClass.eq_def]
  simp [Filepath.getEsc]

theorem Match_a_a : Filepath.Match ['a'] ['a'] = .ok true := by
  rw [Filepath.Match.eq_def]
  simp [Filepath.scanChunk, Filepath.dropStars, Filepath.chunkScan]
  rw [Filepath.matchChunk.eq_def]
  simp
  rw [Filepath.matchChunk.eq_def]
  simp
  rw [Filepath.Match.eq_def]
  simp

theorem Match_a_b : Filepath.Match ['a'] ['b'] = .ok false := by
  rw [Filepath.Match.eq_def]
  simp [Filepath.scanChunk, Filepath.dropStars, Filepath.chunkScan]
  rw [Filepath.matchChunk.eq_def]
  simp
  rw [Filepath.matchChunk.eq_def]
  simp
  rw [Filepath.validateRest.eq_def]
  simp

theorem keysByPatternAux_ok (pattern : Str) :
    ∀ (ks : List Str), (∀ k ∈ ks, ∃ b, Filepath.Match pattern k = .ok b) →
      MemoryCache.keysByPatternAux pattern ks
        = .ok (ks.filter (matchedOk pattern)) := by
  intro ks
  induction ks with
  | nil => intro _; rfl
  | cons k ks' ih =>
    intro h
    obtain ⟨b, hb⟩ := h k (by simp)
    have ih' := ih (fun x hx => h x (List.mem_cons_of_mem _ hx))
    unfold MemoryCache.keysByPatternAux
    rw [hb]
    cases b with
    | true =>
      dsimp only
      rw [ih', List.filter_cons]
      simp [matchedOk, hb, Except.map]
    | false =>
      dsimp only
      rw [ih', List.filter_cons]
      simp [matchedOk, hb]

theorem keysByPatternAux_error (pattern : Str) :
    ∀ (ks : List Str), (MemoryCache.keysByPatternAux pattern ks = .error () ↔
      ∃ k ∈ ks, Filepath.Match pattern k = .error ()) := by
  intro ks
  induction ks with
  | nil => simp [MemoryCache.keysByPatternAux]
  | cons k ks' ih =>
    unfold MemoryCache.keysByPatternAux
    cases hm : Filepath.Match pattern k with
    | error e =>
      cases e
      constructor
      · intro _
        exact ⟨k, by simp, hm⟩
      · intro _
        rfl
    | ok b =>
      cases b with
      | false =>
        dsimp only
        rw [ih]
        constructor
        · rintro ⟨x, hx, hxe⟩
          exact ⟨x, List.mem_cons_of_mem _ hx, hxe⟩
        · rintro ⟨x, hx, hxe⟩
          rcases List.mem_cons.mp hx with h | h
          · rw [h, hm] at hxe
            simp at hxe
          · exact ⟨x, h, hxe⟩
      | true =>
        dsimp only
        constructor
        · intro hmap
          have herr : MemoryCache.keysByPatternAux pattern ks'
              = .error () := by
            cases haux : MemoryCache.keysByPatternAux pattern ks' with
            | error e =>
              cases e
              rfl
            | ok l =>
              rw [haux] at hmap
              simp [Except.map] at hmap
          obtain ⟨x, hx, hxe⟩ := ih.mp herr
          exact ⟨x, List.mem_cons_of_mem _ hx, hxe⟩
        · rintro ⟨x, hx, hxe⟩
          rcases List.mem_cons.mp hx with h | h
          · rw [h, hm] at hxe
            simp at hxe
          · rw [ih.mpr ⟨x, h, hxe⟩]
            rfl

/-- Claim C9 as stated is false on an empty key set: `filepath.Match` is only
consulted inside the loop over stored keys, so with no stored keys a
syntactically invalid pattern (the lone `[`, which the matcher rejects on any
name) is reported as an empty match list with no error. -/
theorem C9_counterexample :
    MemoryCache.KeysByPattern [] ['['] = .ok [] ∧
    Filepath.Match ['['] ['x'] = .error () :=
  ⟨rfl, Match_bracket_x⟩

/-- Claim C9, amended: `KeysByPattern` returns exactly the stored keys the
glob matcher accepts whenever the matcher reports no syntax error on any
stored key, and it returns an error exactly when the matcher reports a syntax
error on at least one stored key — in particular, on an empty store an
invalid pattern yields no error. -/
theorem C9_theorem (st : CacheState) (pattern : Str) :
    ((∀ k ∈ st.map Prod.fst, ∃ b, Filepath.Match pattern k = .ok b) →
      MemoryCache.KeysByPattern st pattern
        = .ok ((st.map Prod.fst).filter (matchedOk pattern))) ∧
    (MemoryCache.KeysByPattern st pattern = .error () ↔
      ∃ k ∈ st.map Prod.fst, Filepath.Match pattern k = .error ()) :=
  ⟨fun h => keysByPatternAux_ok pattern _ h, keysByPatternAux_error pattern _⟩

/-- Witness for C9: on the store holding keys `"a"` and `"b"`, the pattern
`"a"` selects exactly the key `"a"`. -/
theorem C9_witness :
    MemoryCache.KeysByPattern [(['a'], ⟨['v'], none⟩), (['b'], ⟨['v'], none⟩)]
        ['a'] = .ok [['a']] := by
  have h := (C9_theorem
      [(['a'], ⟨['v'], none⟩), (['b'], ⟨['v'], none⟩)] ['a']).1 ?_
  · rw [h]
    simp only [List.map_cons, List.map_nil, List.filter_cons, List.filter_nil,
      matchedOk, Match_a_a, Match_a_b]
    simp
  · intro k hk
    simp only [List.map_cons, List.map_nil, List.mem_cons,
      List.not_mem_nil, or_false] at hk
    rcases hk with h | h
    · exact ⟨true, h ▸ Match_a_a⟩
    · exact ⟨false, h ▸ Match_a_b⟩

/-! ## Claim C10 -/

/-- Claim C10 as stated is false for `LRem` on the empty-string encoding: the
entry keeps its previously set expiry.  After `Store(k, "", 100)` at time 0,
`LRem(k, 0, "a")` leaves the key present with expiry `100` rather than
erasing the TTL. -/
theorem C10_counterexample :
    alookup
        (MemoryCache.LRem (MemoryCache.Store 0 [] ['k'] [] 100) ['k'] 0 ['a'])
        ['k'] = some ⟨[], some 100⟩ := rfl

/-- Claim C10, amended: every `LPush` and `LTrim` call that leaves the key
present stores the entry with no expiry timestamp, and so does every `LRem`
call on a non-empty stored value; only `LRem` on the empty-string encoding
leaves the old entry (and its expiry) untouched. -/
theorem C10_theorem :
    (∀ (st : CacheState) (k v : Str) (it : CacheItem),
        alookup (MemoryCache.LPush st k v) k = some it →
        it.expiresAt = none) ∧
    (∀ (st : CacheState) (k : Str) (start stop : Int) (it : CacheItem),
        alookup (MemoryCache.LTrim st k start stop) k = some it →
        it.expiresAt = none) ∧
    (∀ (st : CacheState) (k : Str) (count : Int) (v : Str)
        (it₀ it : CacheItem), alookup st k = some it₀ → it₀.value ≠ [] →
        alookup (MemoryCache.LRem st k count v) k = some it →
        it.expiresAt = none) := by
  refine ⟨?_, ?_, ?_⟩
  · intro st k v it h
    unfold MemoryCache.LPush at h
    rw [alookup_aset_self] at h
    injection h with h
    rw [← h]
  · intro st k start stop it h
    have heq : MemoryCache.LTrim st k start stop
        = (if MemoryCache.LRange st k start stop = [] then aerase st k
          else aset st k ⟨joinComma (MemoryCache.LRange st k start stop),
            none⟩) := rfl
    rw [heq] at h
    split at h
    · rw [alookup_aerase_self] at h
      cases h
    · rw [alookup_aset_self] at h
      injection h with h
      rw [← h]
  · intro st k count v it₀ it h0 hval h
    have hcond : ¬ splitComma it₀.value = [[]] := by
      rw [splitComma_eq_singleton_nil]
      exact hval
    have heq : MemoryCache.LRem st k count v
        = (if lremSpec (splitComma it₀.value) v count = [] then aerase st k
          else aset st k
            ⟨joinComma (lremSpec (splitComma it₀.value) v count), none⟩) := by
      unfold MemoryCache.LRem
      rw [h0]
      dsimp only
      rw [if_neg hcond, lrem_code_eq_spec]
    rw [heq] at h
    split at h
    · rw [alookup_aerase_self] at h
      cases h
    · rw [alookup_aset_self] at h
      injection h with h
      rw [← h]

/-- Witness for C10: `LRem(k, 0, "y")` on a key stored with value `"x"` and a
TTL leaves the key present with no expiry. -/
theorem C10_witness : (⟨['x'], none⟩ : CacheItem).expiresAt = none :=
  C10_theorem.2.2 (MemoryCache.Store 0 [] ['k'] ['x'] 5) ['k'] 0 ['y']
    ⟨['x'], some 5⟩ ⟨['x'], none⟩ rfl (by decide) rfl

end CacheGo
